import Mathlib

/-!
Verification of the transcript-accumulator core of the ambient-scribe
front-end (`src/components/AmbientScribe.tsx`) and of the empty-input
guard of the clinical-extraction entry point (`src/api/cohere.ts`).

The TypeScript code is shallowly embedded: result lists become Lean
lists, possibly-missing entries/alternatives/texts become `Option`s, and
JavaScript `String.prototype.trim` becomes `trimStr`, which removes
leading and trailing whitespace characters from the underlying character
list.  The React `useState` cell pair (`finalTranscript`,
`interimTranscript`) becomes the record `TranscriptState`, and each event
handler becomes a pure transition function on the observable hook state
`ScribeState`.
-/

namespace AmbientScribe

/-- Characters removed by trimming: whitespace at either end of a string. -/
def trimChars (l : List Char) : List Char :=
  (l.dropWhile Char.isWhitespace).rdropWhile Char.isWhitespace

/-- Embedding of JavaScript `s.trim()`: drop leading and trailing
whitespace from the string's character data. -/
def trimStr (s : String) : String :=
  ⟨trimChars s.data⟩

/-- One candidate transcription (`SpeechRecognitionAlternativeLike`).
The `transcript` field is optional because the handler guards against a
missing text with optional chaining (`alternative?.transcript?.trim()`). -/
structure RecognitionAlternative where
  transcript : Option String

/-- One recognition result (`SpeechRecognitionResultLike`).  Only index 0
of the alternatives is ever read (`result[0] ?? result.item(0)`), so the
embedding keeps just that optional first alternative. -/
structure RecognitionResult where
  isFinal : Bool
  firstAlternative : Option RecognitionAlternative

/-- One recognition event (`SpeechRecognitionEventLike`): an ordered
result list, with possible holes (`list[index] ?? list.item(index)` may
yield nothing), and the `resultIndex` at which fresh results start. -/
structure RecognitionEvent where
  resultIndex : Nat
  results : List (Option RecognitionResult)

/-- Output of `mapTranscriptSegments`: the event-local accumulators. -/
structure TranscriptSegments where
  final : String
  interim : String
deriving DecidableEq, Repr

/-- The trimmed text read from a result's first alternative:
`alternative?.transcript?.trim()`, with a missing alternative or missing
transcript read as the empty string (both fail the `if (!text)` guard
exactly as the empty string does). -/
def alternativeText (alt : Option RecognitionAlternative) : String :=
  match alt with
  | none => ""
  | some a => trimStr (a.transcript.getD "")

/-- The trimmed text contributed by one entry of the result list; a hole
in the list contributes the empty string (the `if (!result) continue`
guard). -/
def entryText (entry : Option RecognitionResult) : String :=
  match entry with
  | none => ""
  | some r => alternativeText r.firstAlternative

/-- The accumulator update `acc = acc ? acc + " " + text : text` used for
both `final` and `interim` in `mapTranscriptSegments`. -/
def joinSegment (acc text : String) : String :=
  if acc = "" then text else acc ++ " " ++ text

/-- One iteration of the `for` loop body of `mapTranscriptSegments`. -/
def segStep (acc : TranscriptSegments) (entry : Option RecognitionResult) :
    TranscriptSegments :=
  match entry with
  | none => acc
  | some result =>
    let text := alternativeText result.firstAlternative
    if text = "" then acc
    else if result.isFinal then { acc with final := joinSegment acc.final text }
    else { acc with interim := joinSegment acc.interim text }

/-- Embedding of `mapTranscriptSegments(list, startIndex)`: scan the list
from `startIndex` to the end, building the event-local `final` and
`interim` strings. -/
def mapTranscriptSegments (list : List (Option RecognitionResult))
    (startIndex : Nat) : TranscriptSegments :=
  (list.drop startIndex).foldl segStep { final := "", interim := "" }

/-- The transcript part of the hook state: the `finalTranscript` and
`interimTranscript` `useState` cells. -/
structure TranscriptState where
  finalTranscript : String
  interimTranscript : String
deriving DecidableEq, Repr

/-- The initial transcript state: both cells start as `''`. -/
def initialTranscript : TranscriptState :=
  { finalTranscript := "", interimTranscript := "" }

/-- Embedding of the `recognition.onresult` handler: replace the interim
transcript by the event's interim segment, and, when the event's final
segment is non-empty, append it to the previous final transcript
(`previous ? (previous + " " + segments.final).trim() : segments.final`). -/
def foldEvent (state : TranscriptState) (e : RecognitionEvent) :
    TranscriptState :=
  let segments := mapTranscriptSegments e.results e.resultIndex
  { finalTranscript :=
      if segments.final = "" then state.finalTranscript
      else if state.finalTranscript = "" then segments.final
      else trimStr (state.finalTranscript ++ " " ++ segments.final),
    interimTranscript := segments.interim }

/-- Folding a whole sequence of result events from a given state. -/
def runEvents (state : TranscriptState) (es : List RecognitionEvent) :
    TranscriptState :=
  es.foldl foldEvent state

/-- The observable state of the `useSpeechRecognition` hook: the two
transcript cells plus `isListening` and `error`. -/
structure ScribeState where
  finalTranscript : String
  interimTranscript : String
  isListening : Bool
  error : Option String
deriving DecidableEq, Repr

/-- The hook's initial state: `useState(false)`, `useState(null)`,
`useState('')`, `useState('')`. -/
def initialScribe : ScribeState :=
  { finalTranscript := "", interimTranscript := "", isListening := false,
    error := none }

/-- The `recognition.onresult` handler acting on the full hook state. -/
def onResult (s : ScribeState) (e : RecognitionEvent) : ScribeState :=
  let t := foldEvent { finalTranscript := s.finalTranscript,
                       interimTranscript := s.interimTranscript } e
  { s with finalTranscript := t.finalTranscript,
           interimTranscript := t.interimTranscript }

/-- The `recognition.onerror` handler: build the message
(`event.error ? "Speech recognition error: " + event.error
: "Speech recognition error occurred."`), store it, and clear
`isListening`.  The transcript cells are not touched. -/
def onError (s : ScribeState) (err : String) : ScribeState :=
  let message :=
    if err = "" then "Speech recognition error occurred."
    else "Speech recognition error: " ++ err
  { s with error := some message, isListening := false }

/-- The `recognition.onend` handler: clear `isListening` and the interim
transcript. -/
def onEnd (s : ScribeState) : ScribeState :=
  { s with isListening := false, interimTranscript := "" }

/-- The `stopListening` callback: when no recognition instance is held by
the ref it returns without touching anything; otherwise it calls
`recognition.stop()` (exceptions swallowed), clears `isListening` and the
interim transcript. -/
def stopListening (hasRecognition : Bool) (s : ScribeState) : ScribeState :=
  if hasRecognition then
    { s with isListening := false, interimTranscript := "" }
  else s

/-- The operations that can touch the transcript cells after the hook is
set up: a result event, the engine-initiated end, and the
caller-initiated stop. -/
inductive Op where
  | result (e : RecognitionEvent)
  | sessionEnd
  | stop (hasRecognition : Bool)

/-- Apply one operation to the hook state. -/
def applyOp (s : ScribeState) : Op → ScribeState
  | Op.result e => onResult s e
  | Op.sessionEnd => onEnd s
  | Op.stop hasRecognition => stopListening hasRecognition s

/-- Apply a sequence of operations to the hook state. -/
def runOps (s : ScribeState) (ops : List Op) : ScribeState :=
  ops.foldl applyOp s

/-- States reachable from the initial hook state by result events,
engine-initiated ends and caller-initiated stops. -/
def Reachable (s : ScribeState) : Prop :=
  ∃ ops : List Op, runOps initialScribe ops = s

/-- Join a list of texts with single spaces, in order, exactly as the
accumulators do: a left fold of `joinSegment` starting from `''`. -/
def spaceJoin (ts : List String) : String :=
  ts.foldl joinSegment ""

/-- The texts a scan keeps for the accumulator selected by `isFin`: per
entry, its trimmed first-alternative text, kept when it is non-empty and
the entry's `isFinal` flag equals `isFin`, in scan order. -/
def keptTexts (isFin : Bool) (l : List (Option RecognitionResult)) :
    List String :=
  l.filterMap fun entry =>
    match entry with
    | none => none
    | some r =>
      let text := alternativeText r.firstAlternative
      if text = "" then none
      else if r.isFinal = isFin then some text else none

/-- The non-empty trimmed first-alternative texts of a result list, in
scan order. -/
def eventTexts (l : List (Option RecognitionResult)) : List String :=
  (l.map entryText).filter (fun t => t ≠ "")

/-- A character list with no whitespace at either end. -/
def NoEdgeWS (l : List Char) : Prop :=
  (∀ c ∈ l.head?, c.isWhitespace = false) ∧
    (∀ c ∈ l.getLast?, c.isWhitespace = false)

/-- A string with no leading and no trailing whitespace. -/
def TrimmedS (s : String) : Prop :=
  NoEdgeWS s.data

/-- A string that is the single-space join of trimmed, non-empty
segments (the empty string is the join of no segments). -/
def WellJoined (s : String) : Prop :=
  ∃ ts : List String, (∀ t ∈ ts, t ≠ "" ∧ TrimmedS t) ∧ s = spaceJoin ts

/-- A result-list entry holding exactly one finalized utterance with the
given raw text (used to describe events that finalize one new result). -/
def finalEntry (t : String) : Option RecognitionResult :=
  some { isFinal := true,
         firstAlternative := some { transcript := some t } }

end AmbientScribe

namespace CohereApi

/-- The structured clinical fields returned by `extractClinicalData`. -/
structure ClinicalData where
  symptoms : List String
  history : List String
  assessment : List String
  medications : List String
  plan : List String
deriving DecidableEq, Repr

/-- The all-empty `ClinicalData` value returned for blank transcripts. -/
def emptyClinicalData : ClinicalData :=
  { symptoms := [], history := [], assessment := [], medications := [],
    plan := [] }

/-- Embedding of `extractClinicalData(transcript)` from `src/api/cohere.ts`.
The external interaction — `cohereClient.chat` followed by response-text
extraction and JSON parsing — is abstracted as the parameter `apiCall`,
which maps the trimmed transcript to either a `ClinicalData` value or a
thrown error message; the guards before that call are embedded exactly.
The second component of the returned pair records whether the external
API was invoked. -/
def extractClinicalData (cohereApiKey : String)
    (apiCall : String → Except String ClinicalData)
    (transcript : String) : Except String ClinicalData × Bool :=
  if transcript = "" ∨ AmbientScribe.trimStr transcript = "" then
    (Except.ok emptyClinicalData, false)
  else if cohereApiKey = "" then
    (Except.error "Missing Cohere API key (set COHERE_API_KEY)", false)
  else
    let trimmedTranscript := AmbientScribe.trimStr transcript
    if trimmedTranscript = "" then
      (Except.error "Transcript is empty; cannot extract clinical data.",
        false)
    else
      (apiCall trimmedTranscript, true)

end CohereApi

namespace AmbientScribe

theorem data_trimStr (s : String) : (trimStr s).data = trimChars s.data :=
  rfl

theorem str_eq_empty_iff (s : String) : s = "" ↔ s.data = [] := by
  constructor
  · intro h
    rw [h]
  · intro h
    cases s
    simp_all

theorem data_append_space (a b : String) :
    (a ++ " " ++ b).data = a.data ++ ' ' :: b.data := by
  simp [String.data_append]

theorem joinSegment_empty_left (t : String) : joinSegment "" t = t := by
  simp [joinSegment]

theorem joinSegment_of_ne (a t : String) (ha : a ≠ "") :
    joinSegment a t = a ++ " " ++ t := by
  simp [joinSegment, ha]

theorem append_space_ne_empty (a t : String) : a ++ " " ++ t ≠ "" := by
  intro h
  rw [str_eq_empty_iff, data_append_space] at h
  simp at h

theorem joinSegment_ne_empty (a t : String) (ha : a ≠ "") :
    joinSegment a t ≠ "" := by
  rw [joinSegment_of_ne a t ha]
  exact append_space_ne_empty a t

theorem foldl_joinSegment_ne_empty (ts : List String) (a : String)
    (ha : a ≠ "") : ts.foldl joinSegment a ≠ "" := by
  induction ts generalizing a with
  | nil => exact ha
  | cons t ts ih => exact ih _ (joinSegment_ne_empty a t ha)

theorem spaceJoin_cons_ne_empty (t : String) (ts : List String) (ht : t ≠ "") :
    spaceJoin (t :: ts) ≠ "" := by
  unfold spaceJoin
  rw [List.foldl_cons, joinSegment_empty_left]
  exact foldl_joinSegment_ne_empty ts t ht

theorem string_append_assoc (a b c : String) : a ++ b ++ c = a ++ (b ++ c) := by
  apply String.ext
  simp [String.data_append]

theorem joinSegment_assoc (a t u : String) (ht : t ≠ "") :
    joinSegment (joinSegment a t) u = joinSegment a (joinSegment t u) := by
  by_cases ha : a = ""
  · subst ha
    rw [joinSegment_empty_left, joinSegment_empty_left]
  · rw [joinSegment_of_ne a t ha, joinSegment_of_ne t u ht,
      joinSegment_of_ne (a ++ " " ++ t) u (append_space_ne_empty a t),
      joinSegment_of_ne a (t ++ " " ++ u) ha]
    apply String.ext
    simp [String.data_append]

theorem foldl_joinSegment_hoist (ts : List String) (a : String)
    (hne : ts ≠ []) (hts : ∀ t ∈ ts, t ≠ "") :
    ts.foldl joinSegment a = joinSegment a (spaceJoin ts) := by
  induction ts generalizing a with
  | nil => exact absurd rfl hne
  | cons t ts ih =>
    have ht : t ≠ "" := hts t (List.mem_cons_self t ts)
    by_cases h : ts = []
    · subst h
      simp [spaceJoin, joinSegment_empty_left]
    · have hts' : ∀ u ∈ ts, u ≠ "" := fun u hu => hts u (List.mem_cons_of_mem t hu)
      rw [List.foldl_cons, ih (joinSegment a t) h hts']
      have : spaceJoin (t :: ts) = joinSegment t (spaceJoin ts) := by
        unfold spaceJoin
        rw [List.foldl_cons, joinSegment_empty_left]
        exact ih t h hts'
      rw [this]
      exact joinSegment_assoc a t (spaceJoin ts) ht

end AmbientScribe

namespace AmbientScribe

theorem noEdgeWS_nil : NoEdgeWS [] := by
  constructor <;> intro c hc <;> simp at hc

theorem trimmedS_empty : TrimmedS "" :=
  noEdgeWS_nil

theorem noEdgeWS_trimChars (l : List Char) : NoEdgeWS (trimChars l) := by
  constructor
  · intro c hc
    obtain ⟨u, hu⟩ := List.rdropWhile_prefix Char.isWhitespace
      (l.dropWhile Char.isWhitespace)
    have hu' : trimChars l ++ u = l.dropWhile Char.isWhitespace := hu
    have hne : trimChars l ≠ [] := by
      intro h
      rw [h] at hc
      simp at hc
    have hdne : l.dropWhile Char.isWhitespace ≠ [] := by
      intro h
      rw [h] at hu'
      exact hne (List.append_eq_nil.mp hu').1
    have h1 : (trimChars l).head? = some c := hc
    have h2 : (l.dropWhile Char.isWhitespace).head? = some c := by
      rw [← hu', List.head?_append_of_ne_nil (trimChars l) hne]
      exact h1
    have h3 : (l.dropWhile Char.isWhitespace).head hdne = c := by
      rw [List.head?_eq_head hdne] at h2
      exact Option.some.inj h2
    rw [← h3]
    exact List.head_dropWhile_not Char.isWhitespace l hdne
  · intro c hc
    have hne : trimChars l ≠ [] := by
      intro h
      rw [h] at hc
      simp at hc
    have hlast := List.rdropWhile_last_not Char.isWhitespace
      (l.dropWhile Char.isWhitespace) hne
    have h1 : (trimChars l).getLast? = some c := hc
    have h3 : (trimChars l).getLast hne = c := by
      rw [List.getLast?_eq_getLast _ hne] at h1
      exact Option.some.inj h1
    rw [← h3]
    exact Bool.not_eq_true _ ▸ hlast

theorem trimmedS_trimStr (s : String) : TrimmedS (trimStr s) :=
  noEdgeWS_trimChars s.data

theorem trimChars_eq_self (l : List Char) (h : NoEdgeWS l) : trimChars l = l := by
  have hdrop : l.dropWhile Char.isWhitespace = l := by
    cases l with
    | nil => rfl
    | cons c t =>
      have := h.1 c (by simp)
      simp [List.dropWhile_cons, this]
  have hrdrop : l.rdropWhile Char.isWhitespace = l := by
    rw [List.rdropWhile_eq_self_iff]
    intro hl
    have := h.2 (l.getLast hl) (by rw [List.getLast?_eq_getLast _ hl]; rfl)
    simp [this]
  unfold trimChars
  rw [hdrop, hrdrop]

theorem trimStr_eq_self (s : String) (h : TrimmedS s) : trimStr s = s := by
  apply String.ext
  rw [data_trimStr]
  exact trimChars_eq_self s.data h

theorem trimmedS_joinSegment (a b : String) (hb : b ≠ "") (ha : TrimmedS a)
    (hbt : TrimmedS b) : TrimmedS (joinSegment a b) := by
  by_cases h : a = ""
  · subst h
    rw [joinSegment_empty_left]
    exact hbt
  · rw [joinSegment_of_ne a b h]
    have hadata : a.data ≠ [] := by
      intro hd
      exact h ((str_eq_empty_iff a).mpr hd)
    have hbdata : b.data ≠ [] := by
      intro hd
      exact hb ((str_eq_empty_iff b).mpr hd)
    constructor
    · intro c hc
      rw [str_eq_empty_iff] at h  -- no-op shield, h unused below
      rw [data_append_space, List.head?_append_of_ne_nil a.data hadata] at hc
      exact ha.1 c hc
    · intro c hc
      rw [data_append_space, List.getLast?_append_cons] at hc
      rw [show (' ' :: b.data) = [' '] ++ b.data from rfl,
        List.getLast?_append_of_ne_nil [' '] hbdata] at hc
      exact hbt.2 c hc

theorem trimmedS_foldl_joinSegment (ts : List String) (a : String)
    (ha : TrimmedS a) (hts : ∀ t ∈ ts, t ≠ "" ∧ TrimmedS t) :
    TrimmedS (ts.foldl joinSegment a) := by
  induction ts generalizing a with
  | nil => exact ha
  | cons t ts ih =>
    obtain ⟨ht, htt⟩ := hts t (List.mem_cons_self t ts)
    exact ih (joinSegment a t) (trimmedS_joinSegment a t ht ha htt)
      (fun u hu => hts u (List.mem_cons_of_mem t hu))

theorem trimmedS_spaceJoin (ts : List String)
    (hts : ∀ t ∈ ts, t ≠ "" ∧ TrimmedS t) : TrimmedS (spaceJoin ts) :=
  trimmedS_foldl_joinSegment ts "" trimmedS_empty hts

theorem wellJoined_empty : WellJoined "" :=
  ⟨[], by simp, rfl⟩

theorem WellJoined.trimmedS {s : String} (h : WellJoined s) : TrimmedS s := by
  obtain ⟨ts, hts, rfl⟩ := h
  exact trimmedS_spaceJoin ts hts

theorem wellJoined_foldl (s : String) (ts : List String) (hs : WellJoined s)
    (hts : ∀ t ∈ ts, t ≠ "" ∧ TrimmedS t) :
    WellJoined (ts.foldl joinSegment s) := by
  obtain ⟨ts0, hts0, rfl⟩ := hs
  refine ⟨ts0 ++ ts, ?_, ?_⟩
  · intro t ht
    rcases List.mem_append.mp ht with h | h
    · exact hts0 t h
    · exact hts t h
  · unfold spaceJoin
    rw [List.foldl_append]

end AmbientScribe

namespace AmbientScribe

theorem segStep_skip (acc : TranscriptSegments) (entry : Option RecognitionResult)
    (h : entryText entry = "") : segStep acc entry = acc := by
  cases entry with
  | none => rfl
  | some r =>
    have h' : alternativeText r.firstAlternative = "" := h
    simp [segStep, h']

theorem foldl_segStep (l : List (Option RecognitionResult))
    (acc : TranscriptSegments) :
    l.foldl segStep acc =
      { final := (keptTexts true l).foldl joinSegment acc.final,
        interim := (keptTexts false l).foldl joinSegment acc.interim } := by
  induction l generalizing acc with
  | nil => simp [keptTexts]
  | cons entry l ih =>
    cases entry with
    | none =>
      rw [List.foldl_cons]
      show l.foldl segStep acc = _
      rw [ih acc]
      simp [keptTexts]
    | some r =>
      by_cases htext : alternativeText r.firstAlternative = ""
      · rw [List.foldl_cons, segStep_skip acc (some r) (by simpa [entryText] using htext)]
        rw [ih acc]
        simp [keptTexts, htext]
      · cases hfin : r.isFinal with
        | true =>
          rw [List.foldl_cons]
          have hstep : segStep acc (some r) =
              { acc with final := joinSegment acc.final (alternativeText r.firstAlternative) } := by
            simp [segStep, htext, hfin]
          rw [hstep, ih]
          have hkt : keptTexts true (some r :: l) =
              alternativeText r.firstAlternative :: keptTexts true l := by
            simp [keptTexts, htext, hfin]
          have hkf : keptTexts false (some r :: l) = keptTexts false l := by
            simp [keptTexts, htext, hfin]
          rw [hkt, hkf, List.foldl_cons]
        | false =>
          rw [List.foldl_cons]
          have hstep : segStep acc (some r) =
              { acc with interim := joinSegment acc.interim (alternativeText r.firstAlternative) } := by
            simp [segStep, htext, hfin]
          rw [hstep, ih]
          have hkt : keptTexts true (some r :: l) = keptTexts true l := by
            simp [keptTexts, htext, hfin]
          have hkf : keptTexts false (some r :: l) =
              alternativeText r.firstAlternative :: keptTexts false l := by
            simp [keptTexts, htext, hfin]
          rw [hkt, hkf, List.foldl_cons]

theorem mapTranscriptSegments_eq (l : List (Option RecognitionResult))
    (i : Nat) :
    mapTranscriptSegments l i =
      { final := spaceJoin (keptTexts true (l.drop i)),
        interim := spaceJoin (keptTexts false (l.drop i)) } := by
  unfold mapTranscriptSegments
  rw [foldl_segStep]
  rfl

theorem keptTexts_mem (isFin : Bool) (l : List (Option RecognitionResult))
    (t : String) (h : t ∈ keptTexts isFin l) : t ≠ "" ∧ TrimmedS t := by
  unfold keptTexts at h
  obtain ⟨entry, _, hmap⟩ := List.mem_filterMap.mp h
  cases entry with
  | none => simp at hmap
  | some r =>
    simp only at hmap
    by_cases htext : alternativeText r.firstAlternative = ""
    · simp [htext] at hmap
    · rw [if_neg htext] at hmap
      by_cases hfin : r.isFinal = isFin
      · rw [if_pos hfin] at hmap
        obtain rfl : alternativeText r.firstAlternative = t := Option.some.inj hmap
        refine ⟨htext, ?_⟩
        cases halt : r.firstAlternative with
        | none => simp [alternativeText, halt, trimmedS_empty]
        | some a =>
          rw [show alternativeText (some a) = trimStr (a.transcript.getD "") from rfl]
          exact trimmedS_trimStr _
      · rw [if_neg hfin] at hmap
        simp at hmap

end AmbientScribe

namespace AmbientScribe

theorem foldEvent_eq (s : TranscriptState) (e : RecognitionEvent)
    (h : TrimmedS s.finalTranscript) :
    foldEvent s e =
      { finalTranscript :=
          (keptTexts true (e.results.drop e.resultIndex)).foldl joinSegment
            s.finalTranscript,
        interimTranscript :=
          spaceJoin (keptTexts false (e.results.drop e.resultIndex)) } := by
  unfold foldEvent
  rw [mapTranscriptSegments_eq]
  cases hk : keptTexts true (e.results.drop e.resultIndex) with
  | nil => simp [spaceJoin]
  | cons t ts =>
    have htmem := keptTexts_mem true (e.results.drop e.resultIndex)
    rw [hk] at htmem
    have ht : t ≠ "" := (htmem t (List.mem_cons_self t ts)).1
    have hne : spaceJoin (t :: ts) ≠ "" := spaceJoin_cons_ne_empty t ts ht
    have hmemne : ∀ u ∈ t :: ts, u ≠ "" := fun u hu => (htmem u hu).1
    have hmemtr : ∀ u ∈ t :: ts, u ≠ "" ∧ TrimmedS u := htmem
    simp only [if_neg hne]
    by_cases hsf : s.finalTranscript = ""
    · rw [if_pos hsf, hsf]
      rw [foldl_joinSegment_hoist (t :: ts) "" (by simp) hmemne]
      rw [joinSegment_empty_left]
    · rw [if_neg hsf]
      rw [foldl_joinSegment_hoist (t :: ts) s.finalTranscript (by simp) hmemne]
      rw [joinSegment_of_ne _ _ hsf]
      congr 1
      apply trimStr_eq_self
      rw [← joinSegment_of_ne _ _ hsf]
      exact trimmedS_joinSegment s.finalTranscript (spaceJoin (t :: ts)) hne h
        (trimmedS_spaceJoin (t :: ts) hmemtr)

theorem foldEvent_wellJoined (s : TranscriptState) (e : RecognitionEvent)
    (h : WellJoined s.finalTranscript) :
    WellJoined (foldEvent s e).finalTranscript ∧
      WellJoined (foldEvent s e).interimTranscript := by
  rw [foldEvent_eq s e h.trimmedS]
  constructor
  · exact wellJoined_foldl s.finalTranscript _ h
      (keptTexts_mem true (e.results.drop e.resultIndex))
  · exact ⟨keptTexts false (e.results.drop e.resultIndex),
      keptTexts_mem false (e.results.drop e.resultIndex), rfl⟩

theorem onResult_finalTranscript (s : ScribeState) (e : RecognitionEvent) :
    (onResult s e).finalTranscript =
      (foldEvent { finalTranscript := s.finalTranscript,
                   interimTranscript := s.interimTranscript } e).finalTranscript :=
  rfl

theorem onResult_interimTranscript (s : ScribeState) (e : RecognitionEvent) :
    (onResult s e).interimTranscript =
      (foldEvent { finalTranscript := s.finalTranscript,
                   interimTranscript := s.interimTranscript } e).interimTranscript :=
  rfl

theorem applyOp_wellJoined (s : ScribeState) (op : Op)
    (h : WellJoined s.finalTranscript ∧ WellJoined s.interimTranscript) :
    WellJoined (applyOp s op).finalTranscript ∧
      WellJoined (applyOp s op).interimTranscript := by
  cases op with
  | result e =>
    have := foldEvent_wellJoined
      { finalTranscript := s.finalTranscript,
        interimTranscript := s.interimTranscript } e h.1
    exact ⟨onResult_finalTranscript s e ▸ this.1,
      onResult_interimTranscript s e ▸ this.2⟩
  | sessionEnd => exact ⟨h.1, wellJoined_empty⟩
  | stop hasRecognition =>
    cases hasRecognition with
    | true => exact ⟨h.1, wellJoined_empty⟩
    | false => exact h

theorem runOps_wellJoined (ops : List Op) (s : ScribeState)
    (h : WellJoined s.finalTranscript ∧ WellJoined s.interimTranscript) :
    WellJoined (runOps s ops).finalTranscript ∧
      WellJoined (runOps s ops).interimTranscript := by
  induction ops generalizing s with
  | nil => exact h
  | cons op ops ih => exact ih (applyOp s op) (applyOp_wellJoined s op h)

theorem reachable_wellJoined (s : ScribeState) (h : Reachable s) :
    WellJoined s.finalTranscript ∧ WellJoined s.interimTranscript := by
  obtain ⟨ops, rfl⟩ := h
  exact runOps_wellJoined ops initialScribe ⟨wellJoined_empty, wellJoined_empty⟩

theorem data_prefix_foldl_joinSegment (ts : List String) (a : String) :
    a.data <+: (ts.foldl joinSegment a).data := by
  induction ts generalizing a with
  | nil => exact List.prefix_refl _
  | cons t ts ih =>
    rw [List.foldl_cons]
    refine List.IsPrefix.trans ?_ (ih (joinSegment a t))
    by_cases ha : a = ""
    · subst ha
      exact List.nil_prefix
    · rw [joinSegment_of_ne a t ha, data_append_space]
      exact ⟨' ' :: t.data, rfl⟩

end AmbientScribe

namespace AmbientScribe

theorem keptTexts_finalEntry (t : String) :
    keptTexts true [finalEntry t] =
      (if trimStr t = "" then [] else [trimStr t]) ∧
    keptTexts false [finalEntry t] = [] := by
  constructor
  · by_cases h : trimStr t = "" <;>
      simp [keptTexts, finalEntry, alternativeText, h]
  · by_cases h : trimStr t = "" <;>
      simp [keptTexts, finalEntry, alternativeText, h]

theorem runEvents_singleFinal_aux (es : List RecognitionEvent)
    (ts : List String)
    (h : es.map (fun e => e.results.drop e.resultIndex) =
      ts.map (fun t => [finalEntry t]))
    (s : TranscriptState) (hs : WellJoined s.finalTranscript) :
    (runEvents s es).finalTranscript =
      ((ts.map trimStr).filter (fun t => t ≠ "")).foldl joinSegment
        s.finalTranscript := by
  induction es generalizing ts s with
  | nil =>
    cases ts with
    | nil => rfl
    | cons t ts => simp at h
  | cons e es ih =>
    cases ts with
    | nil => simp at h
    | cons t ts =>
      simp only [List.map_cons, List.cons.injEq] at h
      obtain ⟨he, hrest⟩ := h
      have hstep := foldEvent_eq s e hs.trimmedS
      rw [he] at hstep
      have hwj := foldEvent_wellJoined s e hs
      show (runEvents (foldEvent s e) es).finalTranscript = _
      rw [ih ts hrest (foldEvent s e) hwj.1, hstep]
      by_cases ht : trimStr t = ""
      · rw [(keptTexts_finalEntry t).1, if_pos ht]
        simp only [List.map_cons, List.foldl_nil]
        rw [List.filter_cons_of_neg (by simp [ht])]
      · rw [(keptTexts_finalEntry t).1, if_neg ht]
        simp only [List.map_cons, List.foldl_cons, List.foldl_nil]
        rw [List.filter_cons_of_pos (by simp [ht]), List.foldl_cons]

theorem keptTexts_cons_none (isFin : Bool) (l : List (Option RecognitionResult)) :
    keptTexts isFin (none :: l) = keptTexts isFin l := by
  unfold keptTexts
  rw [List.filterMap_cons]

theorem keptTexts_cons_skip (isFin : Bool) (r : RecognitionResult)
    (l : List (Option RecognitionResult))
    (h : alternativeText r.firstAlternative = "") :
    keptTexts isFin (some r :: l) = keptTexts isFin l := by
  unfold keptTexts
  rw [List.filterMap_cons]
  simp [h]

theorem keptTexts_cons_keep (isFin : Bool) (r : RecognitionResult)
    (l : List (Option RecognitionResult))
    (h : alternativeText r.firstAlternative ≠ "") (hf : r.isFinal = isFin) :
    keptTexts isFin (some r :: l) =
      alternativeText r.firstAlternative :: keptTexts isFin l := by
  unfold keptTexts
  rw [List.filterMap_cons]
  simp [h, hf]

theorem keptTexts_cons_other (isFin : Bool) (r : RecognitionResult)
    (l : List (Option RecognitionResult))
    (h : alternativeText r.firstAlternative ≠ "") (hf : r.isFinal ≠ isFin) :
    keptTexts isFin (some r :: l) = keptTexts isFin l := by
  unfold keptTexts
  rw [List.filterMap_cons]
  simp [h, hf]

theorem eventTexts_cons (entry : Option RecognitionResult)
    (l : List (Option RecognitionResult)) :
    eventTexts (entry :: l) =
      (if entryText entry = "" then eventTexts l
       else entryText entry :: eventTexts l) := by
  unfold eventTexts
  rw [List.map_cons]
  by_cases h : entryText entry = "" <;> simp [h]

theorem keptTexts_allNonFinal (l : List (Option RecognitionResult))
    (h : ∀ entry ∈ l, ∀ r ∈ entry, r.isFinal = false) :
    keptTexts true l = [] ∧ keptTexts false l = eventTexts l := by
  induction l with
  | nil => exact ⟨rfl, rfl⟩
  | cons entry l ih =>
    have hl : ∀ x ∈ l, ∀ r ∈ x, r.isFinal = false :=
      fun x hx => h x (List.mem_cons_of_mem entry hx)
    obtain ⟨ih1, ih2⟩ := ih hl
    cases entry with
    | none =>
      rw [keptTexts_cons_none, keptTexts_cons_none, eventTexts_cons]
      have : entryText (none : Option RecognitionResult) = "" := rfl
      rw [if_pos this]
      exact ⟨ih1, ih2⟩
    | some r =>
      have hr : r.isFinal = false := h (some r) (List.mem_cons_self _ _) r rfl
      have hent : entryText (some r) = alternativeText r.firstAlternative := rfl
      by_cases htext : alternativeText r.firstAlternative = ""
      · rw [keptTexts_cons_skip true r l htext, keptTexts_cons_skip false r l htext,
          eventTexts_cons, if_pos (hent.trans htext)]
        exact ⟨ih1, ih2⟩
      · rw [keptTexts_cons_other true r l htext (by simp [hr]),
          keptTexts_cons_keep false r l htext hr,
          eventTexts_cons, if_neg (fun hc => htext (hent.symm.trans hc)), hent]
        exact ⟨ih1, by rw [ih2]⟩

end AmbientScribe

namespace AmbientScribe

/-- C1 (counterexample): the claim as stated joins all N finalized trimmed
texts, but a finalized text that trims to the empty string is skipped by
the code and therefore contributes no space: two events finalizing one
result each, with raw texts `"a"` and `" "`, leave `finalTranscript`
equal to `"a"`, not to the space-join of the two trimmed texts. -/
theorem c1_counterexample :
    ([RecognitionEvent.mk 0 [finalEntry "a"],
      RecognitionEvent.mk 0 [finalEntry " "]].map
        (fun e => e.results.drop e.resultIndex) =
      ["a", " "].map (fun t => [finalEntry t])) ∧
    (runEvents initialTranscript
        [RecognitionEvent.mk 0 [finalEntry "a"],
         RecognitionEvent.mk 0 [finalEntry " "]]).finalTranscript ≠
      spaceJoin (["a", " "].map trimStr) := by
  constructor
  · rfl
  · decide

/-- C1 (amended): for every sequence of N recognition events in which
each event finalizes exactly one new result (`startIndex` advancing so
exactly that one result is in range), starting from the empty
`TranscriptState`, `finalTranscript` after applying `foldEvent` to all N
events equals the space-joined concatenation of those of the N finalized
trimmed texts that are non-empty, in original order. -/
theorem c1_singleFinal_finalTranscript (es : List RecognitionEvent)
    (ts : List String)
    (h : es.map (fun e => e.results.drop e.resultIndex) =
      ts.map (fun t => [finalEntry t])) :
    (runEvents initialTranscript es).finalTranscript =
      spaceJoin ((ts.map trimStr).filter (fun t => t ≠ "")) :=
  runEvents_singleFinal_aux es ts h initialTranscript wellJoined_empty

/-- Witness for C1: two events finalizing `"chest pain"` and
`"for two days"`, the second event re-delivering the first result with
`startIndex = 1`. -/
theorem c1_singleFinal_finalTranscript_witness :
    (runEvents initialTranscript
        [RecognitionEvent.mk 0 [finalEntry "chest pain"],
         RecognitionEvent.mk 1 [finalEntry "chest pain",
           finalEntry "for two days"]]).finalTranscript =
      spaceJoin ((["chest pain", "for two days"].map trimStr).filter
        (fun t => t ≠ "")) :=
  c1_singleFinal_finalTranscript _ ["chest pain", "for two days"] rfl

/-- C2: for every `TranscriptState` and every event with `startIndex = 0`
whose results are all non-final, `foldEvent` leaves `finalTranscript`
unchanged and sets `interimTranscript` to the space-joined trimmed texts
of the non-empty first alternatives, in scan order. -/
theorem c2_allNonFinal_interim (s : TranscriptState) (e : RecognitionEvent)
    (h0 : e.resultIndex = 0)
    (h : ∀ entry ∈ e.results, ∀ r ∈ entry, r.isFinal = false) :
    (foldEvent s e).finalTranscript = s.finalTranscript ∧
    (foldEvent s e).interimTranscript = spaceJoin (eventTexts e.results) := by
  obtain ⟨h1, h2⟩ := keptTexts_allNonFinal e.results h
  unfold foldEvent
  rw [mapTranscriptSegments_eq, h0, List.drop_zero, h1, h2]
  constructor
  · simp [spaceJoin]
  · rfl

/-- Witness for C2: one non-final result with raw text `" for two "`,
plus a hole in the list, applied to a state with a non-empty final
transcript. -/
theorem c2_allNonFinal_interim_witness :
    (foldEvent { finalTranscript := "chest pain", interimTranscript := "old" }
        { resultIndex := 0,
          results := [some ⟨false, some ⟨some " for two "⟩⟩, none] }).finalTranscript =
      "chest pain" ∧
    (foldEvent { finalTranscript := "chest pain", interimTranscript := "old" }
        { resultIndex := 0,
          results := [some ⟨false, some ⟨some " for two "⟩⟩, none] }).interimTranscript =
      spaceJoin (eventTexts [some ⟨false, some ⟨some " for two "⟩⟩, none]) :=
  c2_allNonFinal_interim _ _ rfl (by
    intro entry he r hr
    rcases List.mem_cons.mp he with rfl | he2
    · cases hr
      rfl
    · rcases List.mem_cons.mp he2 with rfl | he3
      · simp at hr
      · cases he3)

/-- C3: a result whose first-alternative text trims to the empty string
contributes nothing to either accumulator and never introduces an extra
space (inserting such an entry anywhere in the scanned range leaves
`foldEvent` unchanged); and when the event's joined final text is
non-empty, it is appended to `finalTranscript` joined with a single space
and trimmed if the previous final transcript is non-empty, and becomes
the new `finalTranscript` verbatim if the previous one is empty. -/
theorem c3_skip_and_append :
    (∀ (s : TranscriptState) (l1 l2 : List (Option RecognitionResult))
        (x : Option RecognitionResult) (i : Nat),
      entryText x = "" → i ≤ l1.length →
      foldEvent s ⟨i, l1 ++ x :: l2⟩ = foldEvent s ⟨i, l1 ++ l2⟩) ∧
    (∀ (s : TranscriptState) (e : RecognitionEvent),
      (mapTranscriptSegments e.results e.resultIndex).final ≠ "" →
      (foldEvent s e).finalTranscript =
        (if s.finalTranscript = "" then
          (mapTranscriptSegments e.results e.resultIndex).final
         else trimStr (s.finalTranscript ++ " " ++
          (mapTranscriptSegments e.results e.resultIndex).final))) := by
  constructor
  · intro s l1 l2 x i hx hi
    have hseg : mapTranscriptSegments (l1 ++ x :: l2) i =
        mapTranscriptSegments (l1 ++ l2) i := by
      unfold mapTranscriptSegments
      rw [List.drop_append_of_le_length hi, List.drop_append_of_le_length hi,
        List.foldl_append, List.foldl_append, List.foldl_cons,
        segStep_skip _ x hx]
    simp only [foldEvent]
    rw [hseg]
  · intro s e h
    simp only [foldEvent]
    rw [if_neg h]

/-- Witness for C3: inserting a whitespace-only result into an event does
not change `foldEvent`, and a non-empty final segment is appended with a
single space and a trim. -/
theorem c3_skip_and_append_witness :
    (foldEvent { finalTranscript := "a", interimTranscript := "b" }
        ⟨0, [some ⟨true, some ⟨some "  "⟩⟩, finalEntry "c"]⟩ =
      foldEvent { finalTranscript := "a", interimTranscript := "b" }
        ⟨0, [finalEntry "c"]⟩) ∧
    (foldEvent { finalTranscript := "a", interimTranscript := "b" }
        ⟨0, [finalEntry "c"]⟩).finalTranscript =
      (if ("a" : String) = "" then
        (mapTranscriptSegments [finalEntry "c"] 0).final
       else trimStr ("a" ++ " " ++ (mapTranscriptSegments [finalEntry "c"] 0).final)) :=
  ⟨c3_skip_and_append.1 _ [] [finalEntry "c"] (some ⟨true, some ⟨some "  "⟩⟩) 0
      (by decide) (by decide),
    c3_skip_and_append.2 _ ⟨0, [finalEntry "c"]⟩ (by decide)⟩

end AmbientScribe

namespace AmbientScribe

/-- C4: `finalTranscript` is append-only: for every state reachable from
the initial hook state by result events, engine-initiated ends and
caller-initiated stops, every further operation (in particular every
further `foldEvent`) leaves the prior `finalTranscript` as a prefix of
the new one — no operation removes or alters text once appended. -/
theorem c4_finalTranscript_append_only (s : ScribeState) (h : Reachable s)
    (op : Op) :
    s.finalTranscript.data <+: (applyOp s op).finalTranscript.data := by
  cases op with
  | sessionEnd => exact List.prefix_refl _
  | stop hasRecognition =>
    cases hasRecognition with
    | true => exact List.prefix_refl _
    | false => exact List.prefix_refl _
  | result e =>
    have hwj := (reachable_wellJoined s h).1
    show s.finalTranscript.data <+: (onResult s e).finalTranscript.data
    rw [onResult_finalTranscript s e, foldEvent_eq _ e hwj.trimmedS]
    exact data_prefix_foldl_joinSegment _ _

/-- Witness for C4: the initial state is reachable, and a result event
finalizing `"chest pain"` extends its final transcript. -/
theorem c4_finalTranscript_append_only_witness :
    initialScribe.finalTranscript.data <+:
      (applyOp initialScribe
        (Op.result ⟨0, [finalEntry "chest pain"]⟩)).finalTranscript.data :=
  c4_finalTranscript_append_only initialScribe ⟨[], rfl⟩
    (Op.result ⟨0, [finalEntry "chest pain"]⟩)

/-- C5: `interimTranscript` has no memory across events: for every event
and every two transcript states, `foldEvent` produces the same
`interimTranscript` — the new interim is a full replacement computed from
the event alone, never a function of the prior state. -/
theorem c5_interim_no_memory (e : RecognitionEvent)
    (s1 s2 : TranscriptState) :
    (foldEvent s1 e).interimTranscript = (foldEvent s2 e).interimTranscript :=
  rfl

/-- C6: for every hook state, both the caller-initiated stop (with a live
recognition instance) and the engine-initiated end event clear
`interimTranscript`, leave `finalTranscript` untouched, and set
`isListening` to `false`. -/
theorem c6_stop_end_frame (s : ScribeState) :
    (stopListening true s).interimTranscript = "" ∧
    (stopListening true s).finalTranscript = s.finalTranscript ∧
    (stopListening true s).isListening = false ∧
    (onEnd s).interimTranscript = "" ∧
    (onEnd s).finalTranscript = s.finalTranscript ∧
    (onEnd s).isListening = false := by
  simp [stopListening, onEnd]

/-- C7: for every hook state and every engine error event, the error
transition leaves both transcript cells unchanged, marks the session
inactive, and surfaces a non-null error message string. -/
theorem c7_onError_frame (s : ScribeState) (err : String) :
    (onError s err).finalTranscript = s.finalTranscript ∧
    (onError s err).interimTranscript = s.interimTranscript ∧
    (onError s err).isListening = false ∧
    (∃ m : String, (onError s err).error = some m) :=
  ⟨rfl, rfl, rfl,
    ⟨if err = "" then "Speech recognition error occurred."
      else "Speech recognition error: " ++ err, rfl⟩⟩

/-- C8: the scan is total on malformed shapes: a hole in the result list,
a result with no alternative, and an alternative with a missing text are
all read as empty text and skipped — for every accumulator, transcript
state, results list and `startIndex`, never raised as an error. -/
theorem c8_malformed_skipped :
    (entryText (none : Option RecognitionResult) = "" ∧
      (∀ b : Bool, entryText (some ⟨b, none⟩) = "") ∧
      (∀ b : Bool, entryText (some ⟨b, some ⟨none⟩⟩) = "")) ∧
    (∀ acc : TranscriptSegments, segStep acc none = acc) ∧
    (∀ (acc : TranscriptSegments) (b : Bool), segStep acc (some ⟨b, none⟩) = acc) ∧
    (∀ (acc : TranscriptSegments) (b : Bool),
      segStep acc (some ⟨b, some ⟨none⟩⟩) = acc) ∧
    (∀ (s : TranscriptState) (results : List (Option RecognitionResult))
        (i : Nat),
      foldEvent s ⟨i, results ++ [none]⟩ = foldEvent s ⟨i, results⟩) := by
  refine ⟨⟨rfl, fun b => rfl, fun b => rfl⟩, fun acc => rfl,
    fun acc b => by simp [segStep, alternativeText],
    fun acc b => by simp [segStep, alternativeText, trimStr, trimChars],
    fun s results i => ?_⟩
  have hseg : mapTranscriptSegments (results ++ [none]) i =
      mapTranscriptSegments results i := by
    unfold mapTranscriptSegments
    by_cases hi : i ≤ results.length
    · rw [List.drop_append_of_le_length hi, List.foldl_append]
      rfl
    · push_neg at hi
      rw [List.drop_eq_nil_of_le (by simp; omega),
        List.drop_eq_nil_of_le (by omega)]
  simp only [foldEvent]
  rw [hseg]

/-- C9 (implicit invariant): every reachable hook state has transcript
cells that are single-space joins of trimmed non-empty segments — in
particular with no leading whitespace and no trailing whitespace, and
with no double space introduced by the joins. -/
theorem c9_reachable_wellFormed (s : ScribeState) (h : Reachable s) :
    (WellJoined s.finalTranscript ∧ WellJoined s.interimTranscript) ∧
    (TrimmedS s.finalTranscript ∧ TrimmedS s.interimTranscript) := by
  obtain ⟨h1, h2⟩ := reachable_wellJoined s h
  exact ⟨⟨h1, h2⟩, h1.trimmedS, h2.trimmedS⟩

/-- Witness for C9: the state reached by one result event carrying a
final `" chest pain "` and an interim `"for"` is well-formed. -/
theorem c9_reachable_wellFormed_witness :
    (WellJoined (runOps initialScribe
        [Op.result ⟨0, [finalEntry " chest pain ",
          some ⟨false, some ⟨some "for"⟩⟩]⟩]).finalTranscript ∧
      WellJoined (runOps initialScribe
        [Op.result ⟨0, [finalEntry " chest pain ",
          some ⟨false, some ⟨some "for"⟩⟩]⟩]).interimTranscript) ∧
    (TrimmedS (runOps initialScribe
        [Op.result ⟨0, [finalEntry " chest pain ",
          some ⟨false, some ⟨some "for"⟩⟩]⟩]).finalTranscript ∧
      TrimmedS (runOps initialScribe
        [Op.result ⟨0, [finalEntry " chest pain ",
          some ⟨false, some ⟨some "for"⟩⟩]⟩]).interimTranscript) :=
  c9_reachable_wellFormed _
    ⟨[Op.result ⟨0, [finalEntry " chest pain ",
      some ⟨false, some ⟨some "for"⟩⟩]⟩], rfl⟩

end AmbientScribe

namespace CohereApi

/-- C10: for every transcript that is empty or trims to the empty string,
`extractClinicalData` returns the `ClinicalData` value whose five fields
are all empty lists, raises no error and never invokes the external API —
for every configured key, including none at all, and for every behavior
of the external call. -/
theorem c10_extractClinicalData_blank (cohereApiKey : String)
    (apiCall : String → Except String ClinicalData) (transcript : String)
    (h : transcript = "" ∨ AmbientScribe.trimStr transcript = "") :
    extractClinicalData cohereApiKey apiCall transcript =
      (Except.ok emptyClinicalData, false) := by
  unfold extractClinicalData
  rw [if_pos h]

/-- Witness for C10: a whitespace-only transcript with no key configured
and an external call that would fail if it were ever invoked. -/
theorem c10_extractClinicalData_blank_witness :
    extractClinicalData "" (fun _ => Except.error "unreachable") "   " =
      (Except.ok emptyClinicalData, false) :=
  c10_extractClinicalData_blank "" (fun _ => Except.error "unreachable") "   "
    (Or.inr (by decide))

end CohereApi
